import Mathlib

/-!
# Verification of the SAGA / PSSAGA solvers (`copt/stochastic.py`)

A shallow embedding, in exact rational arithmetic, of the stochastic
variance-reduced solvers of the repository: the sparse block-support
precomputation `_support_matrix`, the gradient-memory initialisation
`init_gradient`, the SAGA and PSSAGA epoch kernels, and the two driver
functions `fmin_SAGA` and `fmin_PSSAGA`.

Modelling conventions:
* floating-point numbers become `ℚ` (exact arithmetic);
* numpy arrays that are mutated in place become values threaded through
  state-passing style; dense arrays indexed by integers become total
  functions `ℕ → ℚ` (the drivers only ever read indices inside bounds);
* the random draws of the drivers (`np.random.randint` for SAGA,
  `np.random.permutation` for PSSAGA) become an explicit oracle: a list of
  index lists, one per driver iteration, together with a predicate
  describing which lists the corresponding numpy call can produce;
* `assert` failures and `raise ValueError` become an `Except` error result;
* the drivers are modelled single-threaded (`n_jobs = 1`), which is the
  execution the claims under study quantify over;
* the Euclidean-norm convergence certificate is represented by its square
  (a rational), which determines it: `‖v‖ < t ↔ ‖v‖² < t²` for `t ≥ 0`,
  and two nonnegative reals are equal iff their squares are.
-/

/-- Compressed sparse row matrix: the `data` / `indices` / `indptr` arrays of
`scipy.sparse.csr_matrix`, plus the two shape fields. -/
structure CSR where
  data : List ℚ
  indices : List ℕ
  indptr : List ℕ
  n_samples : ℕ
  n_features : ℕ

/-- The entries of row `i`: column/value pairs taken from the slice
`[indptr[i], indptr[i+1])` of the `indices` and `data` arrays. -/
def CSR.row (M : CSR) (i : ℕ) : List (ℕ × ℚ) :=
  let lo := M.indptr.getD i 0
  let hi := M.indptr.getD (i + 1) 0
  ((M.indices.drop lo).take (hi - lo)).zip ((M.data.drop lo).take (hi - lo))

/-- Sum of the values of the entries of `l` whose column index is `j`
(a CSR row may in principle carry duplicate column entries; scipy sums
them, and the kernels accumulate per entry, consistently with this). -/
def entSum (l : List (ℕ × ℚ)) (j : ℕ) : ℚ :=
  ((l.filter (fun e => e.1 = j)).map (fun e => e.2)).sum

/-- The matrix coefficient `A[i, j]` denoted by the CSR structure. -/
def CSR.Aent (M : CSR) (i j : ℕ) : ℚ :=
  entSum (M.row i) j

theorem entSum_nil (j : ℕ) : entSum [] j = 0 := rfl

theorem entSum_cons (e : ℕ × ℚ) (t : List (ℕ × ℚ)) (j : ℕ) :
    entSum (e :: t) j = (if e.1 = j then e.2 else 0) + entSum t j := by
  by_cases h : e.1 = j <;> simp [entSum, List.filter_cons, h]

theorem entSum_eq_zero_of_not_mem (l : List (ℕ × ℚ)) (j : ℕ)
    (h : j ∉ l.map Prod.fst) : entSum l j = 0 := by
  induction l with
  | nil => rfl
  | cons e t ih =>
    simp only [List.map_cons, List.mem_cons] at h
    push_neg at h
    rw [entSum_cons, if_neg (by exact fun he => h.1 he.symm), ih h.2, add_zero]

/-- A fold that adds `c * value / n` into the accumulator at each entry's
column adds `c * entSum l j / n` in total at each index `j`.  This is the
shape of every `gradient_average` update loop in the source. -/
theorem foldl_add_update (c n : ℚ) (l : List (ℕ × ℚ)) (ga : ℕ → ℚ) (j : ℕ) :
    (l.foldl (fun g e => Function.update g e.1 (g e.1 + c * e.2 / n)) ga) j
      = ga j + c * entSum l j / n := by
  induction l generalizing ga with
  | nil => simp [entSum_nil]
  | cons e t ih =>
    rw [List.foldl_cons, ih, entSum_cons]
    by_cases h : e.1 = j
    · subst h
      rw [if_pos rfl, Function.update_same]
      ring
    · rw [Function.update_noteq (by exact fun hj => h hj.symm), if_neg h]
      ring

/-- A fold of per-entry point updates leaves indices outside the entry
columns unchanged. -/
theorem foldl_update_not_mem (F : ℕ → ℚ → ℚ → ℚ) (l : List (ℕ × ℚ))
    (v : ℕ → ℚ) (j : ℕ) (h : j ∉ l.map Prod.fst) :
    (l.foldl (fun w e => Function.update w e.1 (F e.1 (w e.1) e.2)) v) j = v j := by
  induction l generalizing v with
  | nil => rfl
  | cons e t ih =>
    simp only [List.map_cons, List.mem_cons] at h
    push_neg at h
    rw [List.foldl_cons, ih _ h.2, Function.update_noteq h.1]

/-- On a row whose column indices are pairwise distinct, the in-place
per-entry update loop acts pointwise: index `j` is rewritten (once) from its
pre-loop value and the (unique) entry value at `j`, and untouched columns
keep their value. -/
theorem foldl_update_nodup (F : ℕ → ℚ → ℚ → ℚ) (l : List (ℕ × ℚ))
    (hl : (l.map Prod.fst).Nodup) (v : ℕ → ℚ) (j : ℕ) :
    (l.foldl (fun w e => Function.update w e.1 (F e.1 (w e.1) e.2)) v) j
      = if j ∈ l.map Prod.fst then F j (v j) (entSum l j) else v j := by
  induction l generalizing v with
  | nil => rfl
  | cons e t ih =>
    rw [List.map_cons, List.nodup_cons] at hl
    rw [List.foldl_cons]
    by_cases h : j = e.1
    · subst h
      rw [foldl_update_not_mem _ _ _ _ hl.1, Function.update_same,
        if_pos (by simp), entSum_cons, if_pos rfl,
        entSum_eq_zero_of_not_mem _ _ hl.1, add_zero]
    · have h' : e.1 ≠ j := fun hj => h hj.symm
      rw [ih hl.2, Function.update_noteq h, entSum_cons, if_neg h', zero_add]
      by_cases hm : j ∈ List.map Prod.fst t <;>
        simp [hm, List.mem_cons, h]

/-! ## The SAGA kernel (`_epoch_factory_sparse_SAGA`) -/

/-- Calling convention of the SAGA-style proximal callable
`g_prox(step_size, x, low, high)`: it rewrites `x` in place on the index
range `[low, high)`; embedded as a function returning the new `x`. -/
abbrev ProxFn : Type := ℚ → (ℕ → ℚ) → ℕ → ℕ → (ℕ → ℚ)

/-- The in-place proximal callable substituted by `fmin_SAGA` when
`g_prox is None` (`def g_prox(step_size, x, *args): return x`): it leaves
`x` untouched. -/
def saga_default_g_prox : ProxFn := fun _ x _ _ => x

/-- Mutable state of one SAGA solve: coefficient vector `x`, per-sample
`memory_gradient`, per-feature `gradient_average`. -/
@[ext]
structure SagaState where
  x : ℕ → ℚ
  mem : ℕ → ℚ
  ga : ℕ → ℚ

/-- `init_gradient(memory_gradient, gradient_average, n_samples)` of the
source: for each sample `i`, store `f_prime(0, b[i])` in the memory table
and accumulate `grad_i * A_data[j] / n_samples` into the gradient average
at each nonzero column of row `i`. -/
def init_gradient (M : CSR) (f_prime : ℚ → ℚ → ℚ) (b : List ℚ)
    (mem ga : ℕ → ℚ) (n_samples : ℕ) : (ℕ → ℚ) × (ℕ → ℚ) :=
  (List.range n_samples).foldl
    (fun s i =>
      let grad_i := f_prime 0 (b.getD i 0)
      let mem' := Function.update s.1 i grad_i
      let ga' := (M.row i).foldl
        (fun g e => Function.update g e.1 (g e.1 + grad_i * e.2 / n_samples))
        s.2
      (mem', ga'))
    (mem, ga)

/-- Body of the sample loop of the SAGA `epoch_iteration_template`:
prediction, derivative, in-place variance-reduced coefficient update on the
row's nonzero columns, full-range `g` proximal step, then the
gradient-average and gradient-memory updates, in source order. -/
def saga_sample (M : CSR) (f_prime : ℚ → ℚ → ℚ) (b : List ℚ)
    (g_prox : ProxFn) (alpha beta : ℚ) (step_size : ℚ)
    (st : SagaState) (i : ℕ) : SagaState :=
  let p := ((M.row i).map (fun e => st.x e.1 * e.2)).sum
  let grad_i := f_prime p (b.getD i 0)
  let mem_i := st.mem i
  let x1 := (M.row i).foldl
    (fun x e =>
      let x_j := x e.1
      let incr := (grad_i - mem_i) * e.2 + (st.ga e.1 + alpha * x_j)
      Function.update x e.1 (x_j - step_size * incr))
    st.x
  let x2 := g_prox (step_size * beta) x1 0 M.n_features
  let ga1 := (M.row i).foldl
    (fun g e =>
      Function.update g e.1 (g e.1 + (grad_i - st.mem i) * e.2 / M.n_samples))
    st.ga
  let mem1 := Function.update st.mem i (st.mem i + (grad_i - mem_i))
  ⟨x2, mem1, ga1⟩

/-- The SAGA `epoch_iteration_template`: iterate `saga_sample` over the
given sample indices in order. -/
def epoch_iteration_template (M : CSR) (f_prime : ℚ → ℚ → ℚ) (b : List ℚ)
    (g_prox : ProxFn) (alpha beta : ℚ) (step_size : ℚ)
    (st : SagaState) (sample_indices : List ℕ) : SagaState :=
  sample_indices.foldl (saga_sample M f_prime b g_prox alpha beta step_size) st

/-! ## The `fmin_SAGA` driver -/

/-- Squared Euclidean norm of the first `nf` coordinates.  The driver's
`np.linalg.norm` certificate is represented by this square, which determines
it (`‖v‖ < t ↔ ‖v‖² < t²` for `t ≥ 0`). -/
def sumSq (nf : ℕ) (v : ℕ → ℚ) : ℚ :=
  ((List.range nf).map (fun j => v j ^ 2)).sum

/-- The error taxonomy of the drivers: the two dimension `assert`s, the
`raise ValueError` on a negative step size, and the block-contiguity
`assert` of the epoch factories. -/
inductive SolverError where
  | dimensionMismatch
  | invalidStepSize
  | invalidBlockAssignment
deriving DecidableEq

def exceptIsOk {ε α : Type} : Except ε α → Bool
  | .ok _ => true
  | .error _ => false

/-- Squared certificate computed by `fmin_SAGA` after each epoch:
`grad = gradient_average + alpha * x`, `z = x - step_size * grad`,
`g_prox(beta * step_size, z, 0, n_features)`, `‖x - z‖²`. -/
def saga_certificate_sq (M : CSR) (g_prox : ProxFn) (alpha beta step_size : ℚ)
    (st : SagaState) : ℚ :=
  let grad := fun j => st.ga j + alpha * st.x j
  let z0 := fun j => st.x j - step_size * grad j
  let z := g_prox (beta * step_size) z0 0 M.n_features
  sumSq M.n_features (fun j => st.x j - z j)

/-- The epoch / certificate / break loop shared by both drivers
(`for it in range(max_iter): ...; if certificate < tol: break`), with one
index list per iteration.  Returns the final state, the success flag, and
the last computed (squared) certificate; `prev` carries the certificate
value when the list of draws is empty. -/
def cert_loop {σ : Type} (epoch : σ → List ℕ → σ) (cert : σ → ℚ)
    (tolSq : ℚ) : List (List ℕ) → σ → ℚ → σ × Bool × ℚ
  | [], st, prev => (st, false, prev)
  | p :: ps, st, _prev =>
    if cert (epoch st p) < tolSq then (epoch st p, true, cert (epoch st p))
    else cert_loop epoch cert tolSq ps (epoch st p) (cert (epoch st p))

/-- Insert into a sorted list (ascending). -/
def insort (a : ℕ) : List ℕ → List ℕ
  | [] => [a]
  | b :: l => if a ≤ b then a :: b :: l else b :: insort a l

/-- Collapse adjacent duplicates of a sorted list. -/
def dedup_sorted : List ℕ → List ℕ
  | [] => []
  | [a] => [a]
  | a :: b :: l => if a = b then dedup_sorted (b :: l) else a :: dedup_sorted (b :: l)

/-- `np.unique`: the sorted list of distinct values. -/
def np_unique (bs : List ℕ) : List ℕ :=
  dedup_sorted (bs.foldr insort [])

/-- `np.unique(blocks).size`. -/
def n_blocks_of (bs : List ℕ) : ℕ :=
  (np_unique bs).length

/-- The block-contiguity `assert` of the epoch factories:
`np.unique(blocks)` must equal `np.arange(n_blocks)`. -/
def blocks_ok (bs : List ℕ) : Bool :=
  decide (np_unique bs = List.range (n_blocks_of bs))

/-- `fmin_SAGA`'s default block assignment:
`g_blocks = np.zeros(n_features)` when the argument is `None`. -/
def saga_resolve_blocks (g_blocks : Option (List ℕ)) (nf : ℕ) : List ℕ :=
  g_blocks.getD (List.replicate nf 0)

/-- `fmin_SAGA`'s handling of the optional `g_prox` argument: a supplied
callable is used as is, `None` becomes the do-nothing callable. -/
def saga_resolve_g_prox (g_prox : Option ProxFn) : ProxFn :=
  g_prox.getD saga_default_g_prox

/-- Arguments of `fmin_SAGA` (single-threaded: `n_jobs = 1`).  `perms` is
the oracle of random index lists, one per driver iteration; its length
plays the role of `max_iter`, and `tolSq` is the squared tolerance. -/
structure SagaArgs where
  A : CSR
  b : List ℚ
  f_prime : ℚ → ℚ → ℚ
  x0 : List ℚ
  alpha : ℚ
  beta : ℚ
  g_prox : Option ProxFn
  step_size : ℚ
  g_blocks : Option (List ℕ)
  tolSq : ℚ
  perms : List (List ℕ)

/-- The fields of the `OptimizeResult` under study. -/
structure SagaResult where
  x : ℕ → ℚ
  success : Bool
  certificate_sq : ℚ

/-- The dense initial coefficient vector read off the `x0` array. -/
def x0_fun (x0 : List ℚ) : ℕ → ℚ :=
  fun j => x0.getD j 0

/-- The JIT warm-up call of `fmin_SAGA`:
`epoch_iteration(x.copy(), memory_gradient, gradient_average, np.array([0]),
step_size)` — the kernel runs on a copy of `x` (whose mutation is
discarded) while the memory terms are passed by reference (their one
sample-0 update is kept). -/
def saga_warmup (M : CSR) (f_prime : ℚ → ℚ → ℚ) (b : List ℚ)
    (g_prox : ProxFn) (alpha beta step_size : ℚ) (st : SagaState) :
    SagaState :=
  let st1 := epoch_iteration_template M f_prime b g_prox alpha beta step_size
    st [0]
  ⟨st.x, st1.mem, st1.ga⟩

/-- Solver state after setup: zero-initialised memory terms passed through
`init_gradient`, then the JIT warm-up call. -/
def saga_init_state (a : SagaArgs) : SagaState :=
  let mg := init_gradient a.A a.f_prime a.b (fun _ => 0) (fun _ => 0)
    a.A.n_samples
  saga_warmup a.A a.f_prime a.b (saga_resolve_g_prox a.g_prox) a.alpha a.beta
    a.step_size ⟨x0_fun a.x0, mg.1, mg.2⟩

/-- One fully-applied SAGA epoch call of the driver. -/
def saga_epoch_of (a : SagaArgs) (st : SagaState) (p : List ℕ) : SagaState :=
  epoch_iteration_template a.A a.f_prime a.b (saga_resolve_g_prox a.g_prox)
    a.alpha a.beta a.step_size st p

/-- The squared certificate the SAGA driver computes on a state. -/
def saga_cert_of (a : SagaArgs) (st : SagaState) : ℚ :=
  saga_certificate_sq a.A (saga_resolve_g_prox a.g_prox) a.alpha a.beta
    a.step_size st

/-- The post-validation computation of `fmin_SAGA`: setup, then the
epoch/certificate loop. -/
def saga_main (a : SagaArgs) : SagaResult :=
  let r := cert_loop (saga_epoch_of a) (saga_cert_of a)
    a.tolSq a.perms (saga_init_state a) 0
  ⟨r.1.x, r.2.1, r.2.2⟩

/-- `fmin_SAGA`: the two dimension `assert`s, the step-size check, the
factory's block-contiguity `assert`, then the solve, in source order. -/
def fmin_SAGA (a : SagaArgs) : Except SolverError SagaResult :=
  if a.x0.length ≠ a.A.n_features then .error .dimensionMismatch
  else if a.A.n_samples ≠ a.b.length then .error .dimensionMismatch
  else if a.step_size < 0 then .error .invalidStepSize
  else if blocks_ok (saga_resolve_blocks a.g_blocks a.A.n_features)
  then .ok (saga_main a)
  else .error .invalidBlockAssignment

/-! ## `_support_matrix` -/

/-- The nonzero column indices of row `i`:
`A_indices[A_indptr[i] : A_indptr[i+1]]`. -/
def sm_cols (A_indices A_indptr : List ℕ) (i : ℕ) : List ℕ :=
  (A_indices.drop (A_indptr.getD i 0)).take
    (A_indptr.getD (i + 1) 0 - A_indptr.getD i 0)

/-- Body of the row loop of `_support_matrix`: scan row `i`'s nonzero
columns, appending each block id the first time the `seen_blocks` marker
has not recorded it, then extend the row-pointer array and lazily reset the
markers set during this row. -/
def sm_body (A_indices A_indptr g_blocks : List ℕ)
    (s : (ℕ → Bool) × List ℕ × List ℕ) (i : ℕ) :
    (ℕ → Bool) × List ℕ × List ℕ :=
  let step := (sm_cols A_indices A_indptr i).foldl
    (fun (t : (ℕ → Bool) × List ℕ) c =>
      let g_idx := g_blocks.getD c 0
      if t.1 g_idx then t
      else (Function.update t.1 g_idx true, t.2 ++ [g_idx]))
    (s.1, s.2.1)
  let appended := step.2.drop s.2.1.length
  let cleaned := appended.foldl (fun sb g => Function.update sb g false) step.1
  (cleaned, step.2, s.2.2 ++ [step.2.length])

/-- `_support_matrix(A_indices, A_indptr, g_blocks, n_blocks)`: for every
row, collect the block ids of the row's nonzero columns the first time they
are seen (a `seen_blocks` marker array, lazily reset after each row), into
a flat id array plus a row-pointer array.  The marker array is modelled as
a total Boolean function and `BS_indices`, preallocated in the source and
written at position `counter_indptr`, as a list that grows by appending.
Returns `(BS_data, BS_indices, BS_indptr)`. -/
def _support_matrix (A_indices A_indptr : List ℕ) (g_blocks : List ℕ)
    (_n_blocks : ℕ) : List ℚ × List ℕ × List ℕ :=
  let rows := A_indptr.length - 1
  let res := (List.range rows).foldl (sm_body A_indices A_indptr g_blocks)
    ((fun _ => false), [], [0])
  (List.replicate res.2.1.length (1 : ℚ), res.2.1, res.2.2)

/-- Row `i` of a compressed (indices, indptr) structure. -/
def bs_row (bsIndices bsIndptr : List ℕ) (i : ℕ) : List ℕ :=
  let lo := bsIndptr.getD i 0
  let hi := bsIndptr.getD (i + 1) 0
  (bsIndices.drop lo).take (hi - lo)

/-! ## The PSSAGA kernel (`_factory_sparse_PSSAGA`) -/

/-- Calling convention of the PSSAGA `g_prox(step_size, x, y, low, high,
weights)`: reads its second argument and rewrites its third in place on
`[low, high)`; embedded as returning the new third argument. -/
abbrev GProxFn : Type := ℚ → (ℕ → ℚ) → (ℕ → ℚ) → ℕ → ℕ → (ℕ → ℚ) → (ℕ → ℚ)

/-- Calling convention of the PSSAGA `h_prox(step_size, x, low, high)`:
rewrites `x` in place on `[low, high)`. -/
abbrev HProxFn : Type := ℚ → (ℕ → ℚ) → ℕ → ℕ → (ℕ → ℚ)

/-- The callable substituted by `fmin_PSSAGA` when `g_prox is None`
(`for i in range(low, high): y[i] = x[i]`): copy the second argument into
the third on the range. -/
def pssaga_default_g_prox : GProxFn := fun _ x y low high _ =>
  fun i => if low ≤ i ∧ i < high then x i else y i

/-- The callable substituted by `fmin_PSSAGA` when `h_prox is None`
(`def h_prox(step_size, x, *args): pass`): leave `x` untouched. -/
def pssaga_default_h_prox : HProxFn := fun _ x _ _ => x

def pssaga_resolve_g_prox (g_prox : Option GProxFn) : GProxFn :=
  g_prox.getD pssaga_default_g_prox

def pssaga_resolve_h_prox (h_prox : Option HProxFn) : HProxFn :=
  h_prox.getD pssaga_default_h_prox

/-- `fmin_PSSAGA`'s resolution of the optional `h_blocks` argument: when
`h_prox is None` and `h_blocks is None`, `h_blocks = np.arange(n_features)`
(inside the `h_prox is None` branch); a still-unset `h_blocks` later
defaults to `np.zeros(n_features)`. -/
def pssaga_resolve_h_blocks (h_prox_given : Bool) (h_blocks : Option (List ℕ))
    (nf : ℕ) : List ℕ :=
  match h_blocks with
  | some bs => bs
  | none => if h_prox_given then List.replicate nf 0 else List.range nf

/-- `indptr` of the reverse block map (`reverse_blocks.tocsr().indptr`):
`indptr[h]` counts the features assigned to blocks `< h`. -/
def rb_indptr (h_blocks : List ℕ) (h : ℕ) : ℕ :=
  (h_blocks.filter (fun g => g < h)).length

/-- Per-block weight `d_h`: `n_samples / (number of rows touching the
block)` (`BS_h.sum(0)` counts each touching row once since block ids are
deduplicated per row), and `1` for untouched blocks. -/
def d_h_fun (nSamples : ℕ) (bsIndices : List ℕ) (h : ℕ) : ℚ :=
  let c := (bsIndices.filter (fun g => g = h)).length
  if c ≠ 0 then (nSamples : ℚ) / c else 1

/-- `d_weights`: zero-initialised, then `1 / d_h[h]` written on each
block's feature range `[RB_h_indptr[h], RB_h_indptr[h+1])`. -/
def d_weights_list (n_features n_blocks : ℕ) (rb : ℕ → ℕ) (dh : ℕ → ℚ) :
    List ℚ :=
  (List.range n_blocks).foldl
    (fun w h =>
      (List.range' (rb h) (rb (h + 1) - rb h)).foldl
        (fun w bj => w.set bj (1 / dh h)) w)
    (List.replicate n_features 0)

/-- Mutable state of one PSSAGA solve: the three coupled vectors `y`, `x`,
`z`, the memory terms, and the transient `grad_est` buffer of the epoch
kernel. -/
@[ext]
structure PssagaState where
  y : ℕ → ℚ
  x : ℕ → ℚ
  z : ℕ → ℚ
  mem : ℕ → ℚ
  ga : ℕ → ℚ
  ge : ℕ → ℚ

/-- Body of the sample loop of the PSSAGA `epoch_iteration_template`:
first `g`-prox block pass over `(y, x)`, prediction and derivative,
`grad_est` fill-in, second block pass computing `z` (with the `h`-prox) and
updating `y`, then the memory-term update and `grad_est` reset, in source
order. -/
def pssaga_sample (M : CSR) (f_prime : ℚ → ℚ → ℚ) (b : List ℚ)
    (g_prox : GProxFn) (h_prox : HProxFn) (alpha beta gamma step_size : ℚ)
    (bsIndices bsIndptr : List ℕ) (rb : ℕ → ℕ) (dh : ℕ → ℚ) (dw : ℕ → ℚ)
    (st : PssagaState) (i : ℕ) : PssagaState :=
  let bsr := bs_row bsIndices bsIndptr i
  let x1 := bsr.foldl
    (fun x h => g_prox (step_size * beta) st.y x (rb h) (rb (h + 1)) dw)
    st.x
  let p := ((M.row i).map (fun e => x1 e.1 * e.2)).sum
  let grad_i := f_prime p (b.getD i 0)
  let ge1 := (M.row i).foldl
    (fun g e => Function.update g e.1 ((grad_i - st.mem i) * e.2)) st.ge
  let yz := bsr.foldl
    (fun (s : (ℕ → ℚ) × (ℕ → ℚ)) h =>
      let lo := rb h
      let hi := rb (h + 1)
      let z1 := (List.range' lo (hi - lo)).foldl
        (fun z bj =>
          Function.update z bj
            (2 * x1 bj - s.1 bj
              - step_size * (ge1 bj + dh h * (st.ga bj + alpha * x1 bj))))
        s.2
      let z2 := h_prox (dh h * step_size * gamma) z1 lo hi
      let y1 := (List.range' lo (hi - lo)).foldl
        (fun y bj => Function.update y bj (y bj - (x1 bj - z2 bj))) s.1
      (y1, z2))
    (st.y, st.z)
  let gage := (M.row i).foldl
    (fun (s : (ℕ → ℚ) × (ℕ → ℚ)) e =>
      (Function.update s.1 e.1
        (s.1 e.1 + (grad_i - st.mem i) * e.2 / M.n_samples),
       Function.update s.2 e.1 0))
    (st.ga, ge1)
  let mem1 := Function.update st.mem i grad_i
  ⟨yz.1, x1, yz.2, mem1, gage.1, gage.2⟩

/-- The PSSAGA `epoch_iteration_template`: allocate a fresh zero
`grad_est`, then iterate `pssaga_sample` over the given sample indices. -/
def pssaga_epoch (M : CSR) (f_prime : ℚ → ℚ → ℚ) (b : List ℚ)
    (g_prox : GProxFn) (h_prox : HProxFn) (alpha beta gamma step_size : ℚ)
    (bsIndices bsIndptr : List ℕ) (rb : ℕ → ℕ) (dh : ℕ → ℚ) (dw : ℕ → ℚ)
    (st : PssagaState) (sample_indices : List ℕ) : PssagaState :=
  sample_indices.foldl
    (pssaga_sample M f_prime b g_prox h_prox alpha beta gamma step_size
      bsIndices bsIndptr rb dh dw)
    { st with ge := fun _ => 0 }

/-! ## The `fmin_PSSAGA` driver -/

/-- Arguments of `fmin_PSSAGA`, with the same oracle conventions as
`SagaArgs` (the PSSAGA driver draws `np.random.permutation(n_samples)`
once per iteration). -/
structure PssagaArgs where
  A : CSR
  b : List ℚ
  f_prime : ℚ → ℚ → ℚ
  x0 : List ℚ
  g_prox : Option GProxFn
  h_prox : Option HProxFn
  alpha : ℚ
  beta : ℚ
  gamma : ℚ
  step_size : ℚ
  h_blocks : Option (List ℕ)
  tolSq : ℚ
  perms : List (List ℕ)

/-- The fields of the PSSAGA `OptimizeResult` under study. -/
structure PssagaResult where
  x : ℕ → ℚ
  y : ℕ → ℚ
  z : ℕ → ℚ
  success : Bool
  certificate_sq : ℚ

/-- The block assignment `fmin_PSSAGA` actually runs with. -/
def pssaga_blocks (a : PssagaArgs) : List ℕ :=
  pssaga_resolve_h_blocks a.h_prox.isSome a.h_blocks a.A.n_features

/-- Squared certificate of the PSSAGA driver: `‖x - z‖²` on the current
state (its `z` is the auxiliary vector maintained by the kernel). -/
def pssaga_certificate_sq (nf : ℕ) (st : PssagaState) : ℚ :=
  sumSq nf (fun j => st.x j - st.z j)

/-- One fully-applied PSSAGA epoch call, with all factory-derived
structures (`BS_h`, `RB_h_indptr`, `d_h`, `d_weights`) computed from the
driver's arguments. -/
def pssaga_epoch_of (a : PssagaArgs) (st : PssagaState)
    (sample_indices : List ℕ) : PssagaState :=
  let h_blocks := pssaga_blocks a
  let nb := n_blocks_of h_blocks
  let bs := _support_matrix a.A.indices a.A.indptr h_blocks nb
  let rb := rb_indptr h_blocks
  let dh := d_h_fun a.A.n_samples bs.2.1
  let dwl := d_weights_list a.A.n_features nb rb dh
  pssaga_epoch a.A a.f_prime a.b (pssaga_resolve_g_prox a.g_prox)
    (pssaga_resolve_h_prox a.h_prox) a.alpha a.beta a.gamma a.step_size
    bs.2.1 bs.2.2 rb dh (fun j => dwl.getD j 0) st sample_indices

/-- PSSAGA state after setup: `y = x0.copy(); x = x0.copy(); z = x.copy()`,
zero-initialised memory terms through `init_gradient`, then the JIT warm-up
`epoch_iteration(y, x, z, memory_gradient, gradient_average, [0], step_size)`
on the live arrays. -/
def pssaga_init_state (a : PssagaArgs) : PssagaState :=
  let mg := init_gradient a.A a.f_prime a.b (fun _ => 0) (fun _ => 0)
    a.A.n_samples
  let st0 : PssagaState :=
    ⟨x0_fun a.x0, x0_fun a.x0, x0_fun a.x0, mg.1, mg.2, fun _ => 0⟩
  pssaga_epoch_of a st0 [0]

/-- The post-validation computation of `fmin_PSSAGA`. -/
def pssaga_main (a : PssagaArgs) : PssagaResult :=
  let r := cert_loop (pssaga_epoch_of a)
    (pssaga_certificate_sq a.A.n_features)
    a.tolSq a.perms (pssaga_init_state a) 0
  ⟨r.1.x, r.1.y, r.1.z, r.2.1, r.2.2⟩

/-- `fmin_PSSAGA`: prox/block resolution, the single dimension `assert`
(`A.shape[0] == b.size`; the coefficient-size assert is commented out in
the source), the step-size check, the factory's block-contiguity `assert`,
then the solve, in source order. -/
def fmin_PSSAGA (a : PssagaArgs) : Except SolverError PssagaResult :=
  if a.A.n_samples ≠ a.b.length then .error .dimensionMismatch
  else if a.step_size < 0 then .error .invalidStepSize
  else if blocks_ok (pssaga_blocks a)
  then .ok (pssaga_main a)
  else .error .invalidBlockAssignment

/-! ## C1: the gradient-average invariant -/

/-- The central invariant: each gradient-average coordinate is the average
over samples of `memory_gradient[i] * A[i, j]`. -/
def gradient_average_invariant (M : CSR) (mem ga : ℕ → ℚ) : Prop :=
  ∀ j < M.n_features,
    ga j = (∑ i in Finset.range M.n_samples, mem i * M.Aent i j) / M.n_samples

theorem sum_map_range_eq (n : ℕ) (f : ℕ → ℚ) :
    ((List.range n).map f).sum = ∑ i in Finset.range n, f i := by
  simp [Finset.sum_range, Finset.range, Multiset.range, Finset.sum]

/-- Updating the memory table at one in-range sample shifts the weighted
sum by the change at that sample. -/
theorem sum_range_update (mem : ℕ → ℚ) (A : ℕ → ℚ) (i : ℕ) (v : ℚ) (n : ℕ)
    (hi : i < n) :
    ∑ i' in Finset.range n, Function.update mem i v i' * A i'
      = (∑ i' in Finset.range n, mem i' * A i') + (v - mem i) * A i := by
  have hsub : ∀ i' ∈ Finset.range n,
      Function.update mem i v i' * A i' - mem i' * A i'
        = if i' = i then (v - mem i) * A i else 0 := by
    intro i' _
    by_cases h : i' = i
    · subst h
      rw [Function.update_same, if_pos rfl]
      ring
    · rw [Function.update_noteq h, if_neg h]
      ring
  have := Finset.sum_congr rfl hsub
  rw [Finset.sum_sub_distrib] at this
  rw [Finset.sum_ite_eq' (Finset.range n) i (fun _ => (v - mem i) * A i)]
    at this
  rw [if_pos (Finset.mem_range.mpr hi)] at this
  linarith

/-- First component of `init_gradient`'s fold: every processed sample's
memory slot holds the derivative at prediction `0`. -/
theorem init_fold_fst (M : CSR) (f : ℚ → ℚ → ℚ) (b : List ℚ) (m : ℕ)
    (l : List ℕ) (s : (ℕ → ℚ) × (ℕ → ℚ)) (i : ℕ) :
    (l.foldl
      (fun s i =>
        (Function.update s.1 i (f 0 (b.getD i 0)),
         (M.row i).foldl
          (fun g e =>
            Function.update g e.1 (g e.1 + f 0 (b.getD i 0) * e.2 / m)) s.2))
      s).1 i
      = if i ∈ l then f 0 (b.getD i 0) else s.1 i := by
  induction l generalizing s with
  | nil => rfl
  | cons a t ih =>
    rw [List.foldl_cons, ih]
    by_cases h : i = a
    · subst h
      by_cases hm : i ∈ t <;> simp [hm, Function.update_same]
    · by_cases hm : i ∈ t <;>
        simp [hm, h, Function.update_noteq h]

/-- Second component of `init_gradient`'s fold: the gradient average
accumulates each processed sample's contribution. -/
theorem init_fold_snd (M : CSR) (f : ℚ → ℚ → ℚ) (b : List ℚ) (m : ℕ)
    (l : List ℕ) (s : (ℕ → ℚ) × (ℕ → ℚ)) (j : ℕ) :
    (l.foldl
      (fun s i =>
        (Function.update s.1 i (f 0 (b.getD i 0)),
         (M.row i).foldl
          (fun g e =>
            Function.update g e.1 (g e.1 + f 0 (b.getD i 0) * e.2 / m)) s.2))
      s).2 j
      = s.2 j + (l.map (fun i => f 0 (b.getD i 0) * M.Aent i j / m)).sum := by
  induction l generalizing s with
  | nil => simp
  | cons a t ih =>
    rw [List.foldl_cons, ih, List.map_cons, List.sum_cons]
    have := foldl_add_update (f 0 (b.getD a 0)) m (M.row a) s.2 j
    simp only [this, CSR.Aent]
    ring

/-- Pair fold of the PSSAGA memory update (`gradient_average` accumulation
together with the `grad_est` reset): first component at `j`. -/
theorem foldl_pair_fst (c n : ℚ) (l : List (ℕ × ℚ)) (ga ge : ℕ → ℚ) (j : ℕ) :
    ((l.foldl
      (fun (s : (ℕ → ℚ) × (ℕ → ℚ)) e =>
        (Function.update s.1 e.1 (s.1 e.1 + c * e.2 / n),
         Function.update s.2 e.1 0))
      (ga, ge)).1) j
      = ga j + c * entSum l j / n := by
  induction l generalizing ga ge with
  | nil => simp [entSum_nil]
  | cons e t ih =>
    rw [List.foldl_cons, ih, entSum_cons]
    by_cases h : e.1 = j
    · subst h
      rw [if_pos rfl, Function.update_same]
      ring
    · rw [Function.update_noteq (by exact fun hj => h hj.symm), if_neg h]
      ring

theorem init_gradient_unfold (M : CSR) (f_prime : ℚ → ℚ → ℚ) (b : List ℚ)
    (mem ga : ℕ → ℚ) (n : ℕ) :
    init_gradient M f_prime b mem ga n
      = (List.range n).foldl
        (fun s i =>
          (Function.update s.1 i (f_prime 0 (b.getD i 0)),
           (M.row i).foldl
            (fun g e =>
              Function.update g e.1 (g e.1 + f_prime 0 (b.getD i 0) * e.2 / n))
            s.2))
        (mem, ga) := rfl

/-- C1: in exact arithmetic and single-threaded execution, the invariant
`gradient_average[j] = (1/n) Σ_i memory_gradient[i] * A[i,j]` (for every
feature `j`) holds after `init_gradient` from the zero state, and is
preserved by every single-sample update of the SAGA epoch kernel and of
the PSSAGA epoch kernel. -/
theorem C1_gradient_average_invariant
    (M : CSR) (f_prime : ℚ → ℚ → ℚ) (b : List ℚ) :
    gradient_average_invariant M
      (init_gradient M f_prime b (fun _ => 0) (fun _ => 0) M.n_samples).1
      (init_gradient M f_prime b (fun _ => 0) (fun _ => 0) M.n_samples).2
    ∧ (∀ (g_prox : ProxFn) (alpha beta step_size : ℚ) (st : SagaState)
        (i : ℕ), i < M.n_samples →
        gradient_average_invariant M st.mem st.ga →
        gradient_average_invariant M
          (saga_sample M f_prime b g_prox alpha beta step_size st i).mem
          (saga_sample M f_prime b g_prox alpha beta step_size st i).ga)
    ∧ (∀ (g_prox : GProxFn) (h_prox : HProxFn)
        (alpha beta gamma step_size : ℚ) (bsI bsP : List ℕ) (rb : ℕ → ℕ)
        (dh dw : ℕ → ℚ) (st : PssagaState) (i : ℕ), i < M.n_samples →
        gradient_average_invariant M st.mem st.ga →
        gradient_average_invariant M
          (pssaga_sample M f_prime b g_prox h_prox alpha beta gamma step_size
            bsI bsP rb dh dw st i).mem
          (pssaga_sample M f_prime b g_prox h_prox alpha beta gamma step_size
            bsI bsP rb dh dw st i).ga) := by
  refine ⟨?_, ?_, ?_⟩
  · intro j _
    have hmem : ∀ i ∈ Finset.range M.n_samples,
        (init_gradient M f_prime b (fun _ => 0) (fun _ => 0) M.n_samples).1 i
            * M.Aent i j
          = f_prime 0 (b.getD i 0) * M.Aent i j := by
      intro i hi
      rw [init_gradient_unfold, init_fold_fst,
        if_pos (List.mem_range.mpr (Finset.mem_range.mp hi))]
    rw [Finset.sum_congr rfl hmem, init_gradient_unfold, init_fold_snd,
      sum_map_range_eq, ← Finset.sum_div]
    simp
  · intro g_prox alpha beta step_size st i hi hinv j hj
    have hga : (saga_sample M f_prime b g_prox alpha beta step_size st i).ga j
        = st.ga j
          + (f_prime (((M.row i).map (fun e => st.x e.1 * e.2)).sum)
              (b.getD i 0) - st.mem i) * M.Aent i j / M.n_samples := by
      simp only [saga_sample]
      rw [foldl_add_update]
      rfl
    have hmem : (saga_sample M f_prime b g_prox alpha beta step_size st i).mem
        = Function.update st.mem i
          (st.mem i
            + (f_prime (((M.row i).map (fun e => st.x e.1 * e.2)).sum)
                (b.getD i 0) - st.mem i)) := by
      simp only [saga_sample]
    rw [hga, hmem, sum_range_update _ _ _ _ _ hi, hinv j hj]
    ring
  · intro g_prox h_prox alpha beta gamma step_size bsI bsP rb dh dw st i hi
      hinv j hj
    set x1 := (bs_row bsI bsP i).foldl
      (fun x h =>
        g_prox (step_size * beta) st.y x (rb h) (rb (h + 1)) dw) st.x with hx1
    have hga : (pssaga_sample M f_prime b g_prox h_prox alpha beta gamma
          step_size bsI bsP rb dh dw st i).ga j
        = st.ga j
          + (f_prime (((M.row i).map (fun e => x1 e.1 * e.2)).sum)
              (b.getD i 0) - st.mem i) * M.Aent i j / M.n_samples := by
      simp only [pssaga_sample]
      rw [foldl_pair_fst]
      rfl
    have hmem : (pssaga_sample M f_prime b g_prox h_prox alpha beta gamma
          step_size bsI bsP rb dh dw st i).mem
        = Function.update st.mem i
          (f_prime (((M.row i).map (fun e => x1 e.1 * e.2)).sum)
            (b.getD i 0)) := by
      simp only [pssaga_sample]
    rw [hga, hmem, sum_range_update _ _ _ _ _ hi, hinv j hj]
    ring

/-- Derivative of the squared loss, `deriv_squared(p, y) = -(y - p)`. -/
def deriv_squared (p y : ℚ) : ℚ := -(y - p)

def c1M : CSR := ⟨[1, 2], [0, 1], [0, 1, 2], 2, 2⟩

def c1b : List ℚ := [1, 2]

def c1st : SagaState :=
  ⟨fun _ => 0,
   (init_gradient c1M deriv_squared c1b (fun _ => 0) (fun _ => 0)
     c1M.n_samples).1,
   (init_gradient c1M deriv_squared c1b (fun _ => 0) (fun _ => 0)
     c1M.n_samples).2⟩

theorem C1_witness :
    (0 : ℕ) < c1M.n_samples
    ∧ gradient_average_invariant c1M
        (saga_sample c1M deriv_squared c1b saga_default_g_prox 0 0 1 c1st 0).mem
        (saga_sample c1M deriv_squared c1b saga_default_g_prox 0 0 1 c1st 0).ga :=
  ⟨by decide,
   (C1_gradient_average_invariant c1M deriv_squared c1b).2.1
     saga_default_g_prox 0 0 1 c1st 0 (by decide)
     (C1_gradient_average_invariant c1M deriv_squared c1b).1⟩

/-! ## C2: the SAGA per-sample update contract -/

/-- The per-sample SAGA update exactly as claim C2 words it: prediction
over the nonzero columns of row `i`, derivative, pointwise in-place
coefficient update `x[j] ← x[j] − η((g_i − memory[i])A[i,j] +
gradient_average[j] + α x[j])` on the nonzero features, the `g` proximal
step scaled by `η β` over the full feature range, then
`gradient_average[j] += (g_i − memory[i]) A[i,j] / n_samples` on the
nonzero features followed by `memory[i] = g_i`. -/
def saga_sample_claim (M : CSR) (f_prime : ℚ → ℚ → ℚ) (b : List ℚ)
    (g_prox : ProxFn) (alpha beta step_size : ℚ)
    (st : SagaState) (i : ℕ) : SagaState :=
  let p := ((M.row i).map (fun e => st.x e.1 * e.2)).sum
  let g_i := f_prime p (b.getD i 0)
  let x1 := fun j =>
    if j ∈ (M.row i).map Prod.fst then
      st.x j
        - step_size * ((g_i - st.mem i) * M.Aent i j + st.ga j + alpha * st.x j)
    else st.x j
  let x2 := g_prox (step_size * beta) x1 0 M.n_features
  let ga1 := fun j =>
    if j ∈ (M.row i).map Prod.fst then
      st.ga j + (g_i - st.mem i) * M.Aent i j / M.n_samples
    else st.ga j
  let mem1 := Function.update st.mem i g_i
  ⟨x2, mem1, ga1⟩

theorem saga_sample_eq_claim (M : CSR) (f_prime : ℚ → ℚ → ℚ) (b : List ℚ)
    (g_prox : ProxFn) (alpha beta step_size : ℚ) (st : SagaState) (i : ℕ)
    (h : ((M.row i).map Prod.fst).Nodup) :
    saga_sample M f_prime b g_prox alpha beta step_size st i
      = saga_sample_claim M f_prime b g_prox alpha beta step_size st i := by
  simp only [saga_sample, saga_sample_claim]
  set G := f_prime (((M.row i).map (fun e => st.x e.1 * e.2)).sum) (b.getD i 0)
    with hG
  have hx : (M.row i).foldl
      (fun x e =>
        Function.update x e.1
          (x e.1
            - step_size * ((G - st.mem i) * e.2 + (st.ga e.1 + alpha * x e.1))))
      st.x
      = fun j =>
        if j ∈ (M.row i).map Prod.fst then
          st.x j
            - step_size
              * ((G - st.mem i) * M.Aent i j + st.ga j + alpha * st.x j)
        else st.x j := by
    funext j
    rw [foldl_update_nodup
      (fun c w v => w - step_size * ((G - st.mem i) * v + (st.ga c + alpha * w)))
      (M.row i) h st.x j]
    split
    · simp only [CSR.Aent]
      ring
    · rfl
  have hga : (M.row i).foldl
      (fun g e =>
        Function.update g e.1 (g e.1 + (G - st.mem i) * e.2 / M.n_samples))
      st.ga
      = fun j =>
        if j ∈ (M.row i).map Prod.fst then
          st.ga j + (G - st.mem i) * M.Aent i j / M.n_samples
        else st.ga j := by
    funext j
    rw [foldl_add_update]
    split
    · simp only [CSR.Aent]
    · rw [entSum_eq_zero_of_not_mem _ _ (by assumption)]
      ring
  have hmem : Function.update st.mem i (st.mem i + (G - st.mem i))
      = Function.update st.mem i G := by
    rw [show st.mem i + (G - st.mem i) = G from by ring]
  rw [hx, hga, hmem]

/-- C2: on rows without duplicate column indices (scipy's canonical CSR
form), a SAGA epoch processes the given sample indices in order, each
exactly as the claim describes: prediction `p = Σ_j x[j] A[i,j]`,
`g_i = f'(p, b_i)`, in-place coefficient update
`x[j] ← x[j] − η((g_i − memory[i]) A[i,j] + gradient_average[j] + α x[j])`
on the nonzero features, `g`-prox scaled by `η β` over the full range, then
`gradient_average[j] += (g_i − memory[i]) A[i,j] / n_samples` followed by
`memory[i] = g_i`. -/
theorem C2_saga_epoch_contract (M : CSR) (f_prime : ℚ → ℚ → ℚ) (b : List ℚ)
    (g_prox : ProxFn) (alpha beta step_size : ℚ) (sample_indices : List ℕ)
    (h : ∀ i ∈ sample_indices, ((M.row i).map Prod.fst).Nodup)
    (st : SagaState) :
    epoch_iteration_template M f_prime b g_prox alpha beta step_size st
        sample_indices
      = sample_indices.foldl
        (saga_sample_claim M f_prime b g_prox alpha beta step_size) st := by
  unfold epoch_iteration_template
  induction sample_indices generalizing st with
  | nil => rfl
  | cons a t ih =>
    rw [List.foldl_cons, List.foldl_cons,
      saga_sample_eq_claim M f_prime b g_prox alpha beta step_size st a
        (h a (List.mem_cons_self a t))]
    exact ih (fun i hi => h i (List.mem_cons_of_mem a hi)) _

def c2M : CSR := ⟨[1, 1, 1], [0, 0, 1], [0, 1, 3], 2, 2⟩

def c2b : List ℚ := [1, 1]

theorem C2_witness :
    (∀ i ∈ [0, 1], ((c2M.row i).map Prod.fst).Nodup)
    ∧ epoch_iteration_template c2M deriv_squared c2b saga_default_g_prox
        0 0 (1/2) ⟨fun _ => 0, fun _ => 0, fun _ => 0⟩ [0, 1]
      = [0, 1].foldl
        (saga_sample_claim c2M deriv_squared c2b saga_default_g_prox 0 0 (1/2))
        ⟨fun _ => 0, fun _ => 0, fun _ => 0⟩ :=
  ⟨by decide,
   C2_saga_epoch_contract c2M deriv_squared c2b saga_default_g_prox 0 0 (1/2)
     [0, 1] (by decide) ⟨fun _ => 0, fun _ => 0, fun _ => 0⟩⟩

/-! ## C3 / C4: driver loop, certificate and random draws -/

/-- The index sequences `np.random.randint(low=0, high=n_samples,
size=n_samples)` can produce — what the SAGA driver hands its epoch
kernel: any length-`n` sequence of indices below `n`, repetitions
allowed. -/
def saga_draw_possible (n : ℕ) (s : List ℕ) : Prop :=
  s.length = n ∧ ∀ x ∈ s, x < n

instance (n : ℕ) (s : List ℕ) : Decidable (saga_draw_possible n s) := by
  unfold saga_draw_possible
  infer_instance

/-- `s` is a permutation of `[0, n)` — every sample index exactly once. -/
def is_permutation_of (n : ℕ) (s : List ℕ) : Prop :=
  s.Perm (List.range n)

instance (n : ℕ) (s : List ℕ) : Decidable (is_permutation_of n s) := by
  unfold is_permutation_of
  infer_instance

/-- The index sequences `np.random.permutation(n_samples)` can produce —
what the PSSAGA driver hands its epoch kernel. -/
def pssaga_draw_possible (n : ℕ) (s : List ℕ) : Prop :=
  is_permutation_of n s

instance (n : ℕ) (s : List ℕ) : Decidable (pssaga_draw_possible n s) := by
  unfold pssaga_draw_possible
  infer_instance

theorem cert_loop_success {σ : Type} (epoch : σ → List ℕ → σ)
    (cert : σ → ℚ) (tolSq : ℚ) (ps : List (List ℕ)) (st : σ) (prev : ℚ) :
    (cert_loop epoch cert tolSq ps st prev).2.1 = true
      ↔ ∃ k < ps.length, cert ((ps.take (k + 1)).foldl epoch st) < tolSq := by
  induction ps generalizing st prev with
  | nil => simp [cert_loop]
  | cons p t ih =>
    by_cases hc : cert (epoch st p) < tolSq
    · simp only [cert_loop, if_pos hc]
      constructor
      · intro _
        exact ⟨0, by simp, by simpa using hc⟩
      · intro _
        trivial
    · simp only [cert_loop, if_neg hc, ih]
      constructor
      · rintro ⟨k, hk, hck⟩
        exact ⟨k + 1, by simpa using Nat.succ_lt_succ hk,
          by simpa [List.take_succ_cons] using hck⟩
      · rintro ⟨k, hk, hck⟩
        match k with
        | 0 => exact absurd (by simpa [List.take_succ_cons] using hck) hc
        | k' + 1 =>
          exact ⟨k', by simpa using Nat.lt_of_succ_lt_succ (by simpa using hk),
            by simpa [List.take_succ_cons] using hck⟩

theorem cert_loop_final_aux {σ : Type} (epoch : σ → List ℕ → σ)
    (cert : σ → ℚ) (tolSq : ℚ) (t : List (List ℕ)) :
    ∀ (p : List ℕ) (st : σ) (prev : ℚ), ∃ k, 1 ≤ k ∧ k ≤ t.length + 1
      ∧ cert_loop epoch cert tolSq (p :: t) st prev
        = (((p :: t).take k).foldl epoch st,
           decide (cert (((p :: t).take k).foldl epoch st) < tolSq),
           cert (((p :: t).take k).foldl epoch st)) := by
  induction t with
  | nil =>
    intro p st prev
    refine ⟨1, le_refl 1, by simp, ?_⟩
    by_cases hc : cert (epoch st p) < tolSq <;>
      simp [cert_loop, hc]
  | cons q r ih =>
    intro p st prev
    by_cases hc : cert (epoch st p) < tolSq
    · refine ⟨1, le_refl 1, by simp, ?_⟩
      simp [cert_loop, hc]
    · obtain ⟨k, h1, h2, heq⟩ := ih q (epoch st p) (cert (epoch st p))
      refine ⟨k + 1, by omega, by simp at h2 ⊢; omega, ?_⟩
      rw [cert_loop, if_neg hc, heq]
      simp [List.take_succ_cons]

theorem cert_loop_final {σ : Type} (epoch : σ → List ℕ → σ)
    (cert : σ → ℚ) (tolSq : ℚ) (ps : List (List ℕ)) (st : σ) (prev : ℚ)
    (hps : ps ≠ []) :
    ∃ k, 1 ≤ k ∧ k ≤ ps.length
      ∧ cert_loop epoch cert tolSq ps st prev
        = ((ps.take k).foldl epoch st,
           decide (cert ((ps.take k).foldl epoch st) < tolSq),
           cert ((ps.take k).foldl epoch st)) := by
  match ps with
  | [] => exact absurd rfl hps
  | p :: t =>
    obtain ⟨k, h1, h2, heq⟩ := cert_loop_final_aux epoch cert tolSq t p st prev
    exact ⟨k, h1, by simpa using h2, heq⟩

/-- Modelled from the spec (claim C3's reading): the exact full gradient of
the smooth part `(1/n) Σ_i f(a_i^T x, b_i) + α/2 ‖x‖²` at the current
coefficient vector `x`. -/
def exact_full_gradient (M : CSR) (f_prime : ℚ → ℚ → ℚ) (b : List ℚ)
    (alpha : ℚ) (x : ℕ → ℚ) (j : ℕ) : ℚ :=
  ((List.range M.n_samples).map
    (fun i =>
      f_prime (((M.row i).map (fun e => x e.1 * e.2)).sum) (b.getD i 0)
        * M.Aent i j)).sum / M.n_samples
    + alpha * x j

/-- Modelled from the spec (claim C3's reading): the squared certificate
`‖x − z‖²` with `z = prox_{ηβg}(x − η ∇F(x))`, `∇F` the exact full
gradient at the current `x`. -/
def claim_certificate_sq (M : CSR) (f_prime : ℚ → ℚ → ℚ) (b : List ℚ)
    (g_prox : ProxFn) (alpha beta step_size : ℚ) (x : ℕ → ℚ) : ℚ :=
  let z0 := fun j => x j - step_size * exact_full_gradient M f_prime b alpha x j
  let z := g_prox (beta * step_size) z0 0 M.n_features
  sumSq M.n_features (fun j => x j - z j)

def c3M : CSR := ⟨[1], [0], [0, 1], 1, 1⟩

def c3a : SagaArgs :=
  ⟨c3M, [1], deriv_squared, [0], 0, 0, none, 1/10, none, 0, [[0]]⟩

theorem x0_fun_zero1 (j : ℕ) : x0_fun ([0] : List ℚ) j = 0 := by
  match j with
  | 0 => rfl
  | _ + 1 => rfl

theorem x0_fun_zero2 (j : ℕ) : x0_fun ([0, 0] : List ℚ) j = 0 := by
  match j with
  | 0 => rfl
  | 1 => rfl
  | _ + 2 => rfl

/-- C3 counterexample: on a one-sample squared-loss problem (whose single
driver iteration necessarily draws the index sequence `[0]`), the
certificate the driver computes differs from `‖x − z‖` with `z` one full
proximal gradient step built from the exact full gradient at the current
`x`: the driver uses the memorised `gradient_average`, which is stale. -/
theorem C3_counterexample :
    saga_draw_possible c3M.n_samples [0]
    ∧ (saga_main c3a).certificate_sq
      ≠ claim_certificate_sq c3M deriv_squared [1] (saga_resolve_g_prox none)
          0 0 (1/10) (saga_main c3a).x := by
  constructor
  · decide
  · norm_num [saga_main, cert_loop, saga_epoch_of, saga_cert_of,
      saga_init_state, saga_warmup, epoch_iteration_template, saga_sample,
      init_gradient,
      saga_certificate_sq, claim_certificate_sq, exact_full_gradient, sumSq,
      CSR.row, CSR.Aent, entSum, x0_fun_zero1, saga_resolve_g_prox,
      saga_default_g_prox, deriv_squared, Function.update_apply, c3a, c3M,
      List.range_succ, List.range_zero]

/-- C3 (amended): for both drivers, the run succeeds exactly when the
computed squared certificate falls below the squared tolerance within the
available iterations, and the reported certificate is the one computed on
the state reached after the final epoch: for SAGA,
`‖x − prox_{βη g}(x − η (gradient_average + α x))‖²` (built from the
maintained gradient average, not the exact full gradient), and for PSSAGA
`‖x − z‖²` with `z` the auxiliary splitting vector of the kernel. -/
theorem C3_certificate_and_termination :
    (∀ a : SagaArgs,
      ((saga_main a).success = true
        ↔ ∃ k < a.perms.length,
            saga_cert_of a
              ((a.perms.take (k + 1)).foldl (saga_epoch_of a)
                (saga_init_state a)) < a.tolSq)
      ∧ (a.perms ≠ [] → ∃ k, 1 ≤ k ∧ k ≤ a.perms.length
          ∧ (saga_main a).x
            = ((a.perms.take k).foldl (saga_epoch_of a) (saga_init_state a)).x
          ∧ (saga_main a).certificate_sq
            = saga_cert_of a
              ((a.perms.take k).foldl (saga_epoch_of a) (saga_init_state a))))
    ∧ (∀ a : PssagaArgs,
      ((pssaga_main a).success = true
        ↔ ∃ k < a.perms.length,
            pssaga_certificate_sq a.A.n_features
              ((a.perms.take (k + 1)).foldl (pssaga_epoch_of a)
                (pssaga_init_state a)) < a.tolSq)
      ∧ (a.perms ≠ [] → ∃ k, 1 ≤ k ∧ k ≤ a.perms.length
          ∧ (pssaga_main a).x
            = ((a.perms.take k).foldl (pssaga_epoch_of a)
                (pssaga_init_state a)).x
          ∧ (pssaga_main a).certificate_sq
            = pssaga_certificate_sq a.A.n_features
              ((a.perms.take k).foldl (pssaga_epoch_of a)
                (pssaga_init_state a)))) := by
  constructor
  · intro a
    constructor
    · exact cert_loop_success (saga_epoch_of a) (saga_cert_of a) a.tolSq
        a.perms (saga_init_state a) 0
    · intro hps
      obtain ⟨k, h1, h2, heq⟩ := cert_loop_final (saga_epoch_of a)
        (saga_cert_of a) a.tolSq a.perms (saga_init_state a) 0 hps
      refine ⟨k, h1, h2, ?_, ?_⟩
      · simp only [saga_main, heq]
      · simp only [saga_main, heq]
  · intro a
    constructor
    · exact cert_loop_success (pssaga_epoch_of a)
        (pssaga_certificate_sq a.A.n_features) a.tolSq
        a.perms (pssaga_init_state a) 0
    · intro hps
      obtain ⟨k, h1, h2, heq⟩ := cert_loop_final (pssaga_epoch_of a)
        (pssaga_certificate_sq a.A.n_features) a.tolSq a.perms
        (pssaga_init_state a) 0 hps
      refine ⟨k, h1, h2, ?_, ?_⟩
      · simp only [pssaga_main, heq]
      · simp only [pssaga_main, heq]

theorem C3_witness :
    c3a.perms ≠ []
    ∧ (∃ k, 1 ≤ k ∧ k ≤ c3a.perms.length
        ∧ (saga_main c3a).x
          = ((c3a.perms.take k).foldl (saga_epoch_of c3a)
              (saga_init_state c3a)).x
        ∧ (saga_main c3a).certificate_sq
          = saga_cert_of c3a
            ((c3a.perms.take k).foldl (saga_epoch_of c3a)
              (saga_init_state c3a))) :=
  ⟨by decide, (C3_certificate_and_termination.1 c3a).2 (by decide)⟩

def c4M : CSR := ⟨[1, 1], [0, 0], [0, 1, 2], 2, 1⟩

def c4a : SagaArgs :=
  ⟨c4M, [1, 2], deriv_squared, [0], 0, 0, none, 1/10, none, 0, [[0, 0]]⟩

/-- C4 counterexample: `[0, 0]` is a sequence `np.random.randint(0, 2, 2)`
can draw, so the SAGA driver execution that hands `[0, 0]` to its epoch
kernel is possible — and `[0, 0]` is not a permutation of `[0, 2)`
(sample `1` never appears). -/
theorem C4_counterexample :
    (∀ p ∈ c4a.perms, saga_draw_possible c4a.A.n_samples p)
    ∧ [0, 0] ∈ c4a.perms
    ∧ ¬ is_permutation_of c4a.A.n_samples [0, 0] := by
  decide

/-- C4 (amended): every sequence the PSSAGA driver hands its kernel is a
random permutation of `[0, n_samples)`; the SAGA driver instead draws
`n_samples` i.i.d. uniform indices with replacement — any length-`n`
sequence of indices below `n` is possible (permutations among them), and
repetitions are allowed. -/
theorem C4_draws :
    (∀ (n : ℕ) (s : List ℕ), pssaga_draw_possible n s → is_permutation_of n s)
    ∧ (∀ (n : ℕ) (s : List ℕ), saga_draw_possible n s
        → s.length = n ∧ ∀ x ∈ s, x < n)
    ∧ (∀ (n : ℕ) (s : List ℕ), is_permutation_of n s
        → saga_draw_possible n s) := by
  refine ⟨fun n s h => h, fun n s h => h, fun n s h => ⟨?_, ?_⟩⟩
  · rw [h.length_eq, List.length_range]
  · intro x hx
    exact List.mem_range.mp (h.subset hx)

theorem C4_witness :
    pssaga_draw_possible 2 [1, 0]
    ∧ is_permutation_of 2 [1, 0]
    ∧ saga_draw_possible 2 [1, 0] :=
  ⟨by decide, C4_draws.1 2 [1, 0] (by decide), C4_draws.2.2 2 [1, 0] (by decide)⟩

/-! ## C5 / C6: eager validation -/

def c5sa : SagaArgs :=
  ⟨⟨[1], [0], [0, 1], 1, 1⟩, [1], deriv_squared, [0], 0, 0, none, 0, none, 0,
   [[0]]⟩

def c5pa : PssagaArgs :=
  ⟨⟨[1], [0], [0, 1], 1, 1⟩, [1], deriv_squared, [0], none, none, 0, 0, 0, 0,
   none, 0, [[0]]⟩

/-- C5 counterexample: both solvers accept `step_size = 0` (the source
checks `step_size < 0`, not `≤ 0`): the calls run to completion instead of
raising `InvalidStepSize`. -/
theorem C5_counterexample :
    c5sa.step_size = 0 ∧ c5pa.step_size = 0
    ∧ exceptIsOk (fmin_SAGA c5sa) = true
    ∧ exceptIsOk (fmin_PSSAGA c5pa) = true :=
  ⟨rfl, rfl, rfl, rfl⟩

/-- C5 (amended): on dimension-valid input, each solver raises
`InvalidStepSize` exactly for a strictly negative step size — before any
epoch (an error result carries no solver state) — and a nonnegative step
size never produces this error. -/
theorem C5_step_size_check :
    (∀ a : SagaArgs, a.x0.length = a.A.n_features → a.A.n_samples = a.b.length
      → (fmin_SAGA a = .error .invalidStepSize ↔ a.step_size < 0))
    ∧ (∀ a : PssagaArgs, a.A.n_samples = a.b.length
      → (fmin_PSSAGA a = .error .invalidStepSize ↔ a.step_size < 0)) := by
  constructor
  · intro a h1 h2
    unfold fmin_SAGA
    split_ifs with d1 d2 d3 d4 <;> simp_all
  · intro a h1
    unfold fmin_PSSAGA
    split_ifs with d1 d2 d3 <;> simp_all

def c5wa : SagaArgs :=
  ⟨⟨[1], [0], [0, 1], 1, 1⟩, [1], deriv_squared, [0], 0, 0, none, -1, none, 0,
   [[0]]⟩

def c5wp : PssagaArgs :=
  ⟨⟨[1], [0], [0, 1], 1, 1⟩, [1], deriv_squared, [0], none, none, 0, 0, 0, -1,
   none, 0, [[0]]⟩

theorem C5_witness :
    (c5wa.x0.length = c5wa.A.n_features ∧ c5wa.A.n_samples = c5wa.b.length
      ∧ (fmin_SAGA c5wa = .error .invalidStepSize ↔ c5wa.step_size < 0))
    ∧ (c5wp.A.n_samples = c5wp.b.length
      ∧ (fmin_PSSAGA c5wp = .error .invalidStepSize ↔ c5wp.step_size < 0)) :=
  ⟨⟨rfl, rfl, C5_step_size_check.1 c5wa rfl rfl⟩,
   ⟨rfl, C5_step_size_check.2 c5wp rfl⟩⟩

def c6p : PssagaArgs :=
  ⟨⟨[1], [0], [0, 1], 1, 1⟩, [1], deriv_squared, [0, 0, 0], none, none,
   0, 0, 0, 0, none, 0, [[0]]⟩

/-- C6 counterexample: `fmin_PSSAGA` does not check the coefficient-vector
size (the corresponding `assert` is commented out in the source): a call
whose `x0` has 3 entries against 1 feature completes without a
`DimensionMismatch` error. -/
theorem C6_counterexample :
    c6p.x0.length ≠ c6p.A.n_features ∧ exceptIsOk (fmin_PSSAGA c6p) = true :=
  ⟨by decide, rfl⟩

/-- C6 (amended): at setup, before any epoch, `fmin_SAGA` raises
`DimensionMismatch` exactly when the coefficient size differs from the
feature count or the sample count differs from the target size; but
`fmin_PSSAGA` checks only the sample-count condition — a coefficient-size
mismatch is not detected. -/
theorem C6_dimension_checks :
    (∀ a : SagaArgs,
      fmin_SAGA a = .error .dimensionMismatch
        ↔ (a.x0.length ≠ a.A.n_features ∨ a.A.n_samples ≠ a.b.length))
    ∧ (∀ a : PssagaArgs,
      fmin_PSSAGA a = .error .dimensionMismatch
        ↔ a.A.n_samples ≠ a.b.length) := by
  constructor
  · intro a
    unfold fmin_SAGA
    split_ifs with d1 d2 d3 d4 <;> simp_all
  · intro a
    unfold fmin_PSSAGA
    split_ifs with d1 d2 d3 <;> simp_all

/-! ## C7 / C8: defaults for blocks and proximal operators -/

/-- Modelled from the spec: the one-feature-per-block assignment — feature
`j` belongs to block `j`. -/
def one_feature_per_block (nf : ℕ) : List ℕ :=
  List.range nf

/-- C7 counterexample: with `g_blocks=None`, `fmin_SAGA` runs with
`np.zeros(n_features)` — a single block holding every feature — not with
the one-feature-per-block assignment. -/
theorem C7_counterexample :
    saga_resolve_blocks none 2 = [0, 0]
    ∧ saga_resolve_blocks none 2 ≠ one_feature_per_block 2 := by
  decide

/-- C7 (amended): the omitted block assignment defaults to the single
all-zero block in `fmin_SAGA`; in `fmin_PSSAGA` it defaults to
one-feature-per-block (`np.arange`) when `h_prox` is also omitted, and to
the single all-zero block when an `h_prox` callable is supplied; an
explicit assignment is always used as given. -/
theorem C7_default_blocks :
    (∀ nf : ℕ, saga_resolve_blocks none nf = List.replicate nf 0)
    ∧ (∀ nf : ℕ, pssaga_resolve_h_blocks false none nf
        = one_feature_per_block nf)
    ∧ (∀ nf : ℕ, pssaga_resolve_h_blocks true none nf = List.replicate nf 0)
    ∧ (∀ (g : Bool) (bs : List ℕ) (nf : ℕ),
        pssaga_resolve_h_blocks g (some bs) nf = bs) :=
  ⟨fun _ => rfl, fun _ => rfl, fun _ => rfl, fun _ _ _ => rfl⟩

def c8M : CSR := ⟨[1, 1, 1], [0, 0, 1], [0, 1, 3], 2, 2⟩

def c8a : PssagaArgs :=
  ⟨c8M, [1, 1], deriv_squared, [0, 0], none, none, 1, 0, 0, 1/4, none, 0,
   [[0, 1]]⟩

def c8b : PssagaArgs :=
  ⟨c8M, [1, 1], deriv_squared, [0, 0], none, some pssaga_default_h_prox,
   1, 0, 0, 1/4, none, 0, [[0, 1]]⟩

/-- C8 counterexample: two `fmin_PSSAGA` calls that differ only in the
`h_prox` argument — `None` versus an explicit identity (pass-through)
operator — with `h_blocks` omitted in both, produce different coefficient
vectors after one identical epoch, because omitting `h_prox` also switches
the default block assignment from a single block to one-per-feature. -/
theorem C8_counterexample :
    c8a = { c8b with h_prox := none }
    ∧ c8b.h_prox = some pssaga_default_h_prox
    ∧ (pssaga_main c8a).x 1 ≠ (pssaga_main c8b).x 1 := by
  refine ⟨rfl, rfl, ?_⟩
  have ha : (pssaga_main c8a).x 1 = 0 := by
    norm_num [pssaga_main, cert_loop, pssaga_epoch_of, pssaga_init_state,
      pssaga_epoch, pssaga_sample, pssaga_certificate_sq, init_gradient,
      pssaga_blocks, pssaga_resolve_h_blocks, pssaga_resolve_g_prox,
      pssaga_resolve_h_prox, pssaga_default_g_prox, pssaga_default_h_prox,
      n_blocks_of, np_unique, dedup_sorted, insort, _support_matrix, sm_body,
      sm_cols, bs_row,
      rb_indptr, d_h_fun, d_weights_list, sumSq, CSR.row, CSR.Aent, entSum,
      x0_fun_zero2, deriv_squared, Function.update_apply, c8a, c8M,
      List.range_succ, List.range_zero, List.range']
  have hb : (pssaga_main c8b).x 1 = 7/32 := by
    norm_num [pssaga_main, cert_loop, pssaga_epoch_of, pssaga_init_state,
      pssaga_epoch, pssaga_sample, pssaga_certificate_sq, init_gradient,
      pssaga_blocks, pssaga_resolve_h_blocks, pssaga_resolve_g_prox,
      pssaga_resolve_h_prox, pssaga_default_g_prox, pssaga_default_h_prox,
      n_blocks_of, np_unique, dedup_sorted, insort, _support_matrix, sm_body,
      sm_cols, bs_row,
      rb_indptr, d_h_fun, d_weights_list, sumSq, CSR.row, CSR.Aent, entSum,
      x0_fun_zero2, deriv_squared, Function.update_apply, c8b, c8M,
      List.range_succ, List.range_zero, List.range']
  rw [ha, hb]
  norm_num

/-- C8 (amended): omitting a proximal callable is equivalent to supplying
the explicit identity operator of the corresponding calling convention for
the `g` terms of both solvers unconditionally, and for PSSAGA's `h` term
whenever the block assignment is supplied explicitly; with `h_blocks`
omitted the two calls run with different default block assignments and the
equivalence fails (see the counterexample). -/
theorem C8_default_prox_equivalence :
    (∀ a : SagaArgs,
      fmin_SAGA { a with g_prox := none }
        = fmin_SAGA { a with g_prox := some saga_default_g_prox })
    ∧ (∀ a : PssagaArgs,
      fmin_PSSAGA { a with g_prox := none }
        = fmin_PSSAGA { a with g_prox := some pssaga_default_g_prox })
    ∧ (∀ (a : PssagaArgs) (bs : List ℕ),
      fmin_PSSAGA { a with h_prox := none, h_blocks := some bs }
        = fmin_PSSAGA
          { a with h_prox := some pssaga_default_h_prox, h_blocks := some bs }) :=
  ⟨fun _ => rfl, fun _ => rfl, fun _ _ => rfl⟩

/-! ## C9: correctness of `_support_matrix` -/

/-- Keep the first occurrence of every value, skipping values already in
`seen`. -/
def first_dedup_aux (seen : List ℕ) : List ℕ → List ℕ
  | [] => []
  | a :: l =>
    if a ∈ seen then first_dedup_aux seen l
    else a :: first_dedup_aux (a :: seen) l

/-- First-occurrence deduplication: each value of `l`, once, in the order
of its first occurrence. -/
def first_dedup (l : List ℕ) : List ℕ :=
  first_dedup_aux [] l

/-- The block ids appended while scanning columns `l` with marker state
`seen`: each yet-unmarked block id, once, at its first occurrence. -/
def new_blocks (g_blocks : List ℕ) (seen : ℕ → Bool) : List ℕ → List ℕ
  | [] => []
  | c :: l =>
    if seen (g_blocks.getD c 0) then new_blocks g_blocks seen l
    else g_blocks.getD c 0
      :: new_blocks g_blocks (Function.update seen (g_blocks.getD c 0) true) l

def set_true (s : ℕ → Bool) (l : List ℕ) : ℕ → Bool :=
  l.foldl (fun s g => Function.update s g true) s

def set_false (s : ℕ → Bool) (l : List ℕ) : ℕ → Bool :=
  l.foldl (fun s g => Function.update s g false) s

theorem sm_inner_spec (g_blocks : List ℕ) (cols : List ℕ) :
    ∀ (seen : ℕ → Bool) (acc : List ℕ),
    cols.foldl
      (fun (t : (ℕ → Bool) × List ℕ) c =>
        if t.1 (g_blocks.getD c 0) then t
        else (Function.update t.1 (g_blocks.getD c 0) true,
          t.2 ++ [g_blocks.getD c 0]))
      (seen, acc)
      = (set_true seen (new_blocks g_blocks seen cols),
         acc ++ new_blocks g_blocks seen cols) := by
  induction cols with
  | nil => intro seen acc; simp [new_blocks, set_true]
  | cons c l ih =>
    intro seen acc
    rw [List.foldl_cons]
    by_cases h : seen (g_blocks.getD c 0)
    · rw [if_pos h, ih, new_blocks, if_pos h]
    · rw [if_neg h, ih, new_blocks, if_neg h]
      simp [set_true, List.append_assoc]

theorem new_blocks_eq_first_dedup_aux (g_blocks : List ℕ) (l : List ℕ) :
    ∀ (s : ℕ → Bool) (sl : List ℕ), (∀ g, s g = true ↔ g ∈ sl) →
    new_blocks g_blocks s l
      = first_dedup_aux sl (l.map (fun c => g_blocks.getD c 0)) := by
  induction l with
  | nil => intro s sl _; rfl
  | cons c t ih =>
    intro s sl hs
    rw [new_blocks, List.map_cons, first_dedup_aux]
    by_cases h : s (g_blocks.getD c 0)
    · rw [if_pos h, if_pos ((hs _).mp h), ih s sl hs]
    · rw [if_neg h, if_neg (fun hm => h ((hs _).mpr hm))]
      congr 1
      refine ih _ _ ?_
      intro g
      by_cases hg : g = g_blocks.getD c 0
      · subst hg
        simp [Function.update_same]
      · rw [Function.update_noteq hg, hs g, List.mem_cons]
        exact ⟨Or.inr, fun hmem => hmem.resolve_left hg⟩

theorem new_blocks_false (g_blocks : List ℕ) (l : List ℕ) :
    new_blocks g_blocks (fun _ => false) l
      = first_dedup (l.map (fun c => g_blocks.getD c 0)) :=
  new_blocks_eq_first_dedup_aux g_blocks l (fun _ => false) []
    (fun g => by simp)

theorem first_dedup_aux_spec (l : List ℕ) :
    ∀ sl : List ℕ, (first_dedup_aux sl l).Nodup
      ∧ (∀ g, g ∈ first_dedup_aux sl l ↔ (g ∈ l ∧ g ∉ sl)) := by
  induction l with
  | nil => intro sl; simp [first_dedup_aux]
  | cons a t ih =>
    intro sl
    rw [first_dedup_aux]
    by_cases h : a ∈ sl
    · rw [if_pos h]
      refine ⟨(ih sl).1, ?_⟩
      intro g
      rw [(ih sl).2 g]
      constructor
      · rintro ⟨h1, h2⟩
        exact ⟨List.mem_cons_of_mem a h1, h2⟩
      · rintro ⟨h1, h2⟩
        rcases List.mem_cons.mp h1 with h1 | h1
        · subst h1; exact absurd h h2
        · exact ⟨h1, h2⟩
    · rw [if_neg h]
      refine ⟨?_, ?_⟩
      · rw [List.nodup_cons]
        refine ⟨fun hmem => ?_, (ih (a :: sl)).1⟩
        exact absurd (List.mem_cons_self a sl) (((ih (a :: sl)).2 a).mp hmem).2
      · intro g
        rw [List.mem_cons, (ih (a :: sl)).2 g, List.mem_cons]
        by_cases hg : g = a
        · subst hg; simp [h]
        · simp [hg]

theorem set_true_eval (l : List ℕ) :
    ∀ (s : ℕ → Bool) (g : ℕ), set_true s l g = (if g ∈ l then true else s g) := by
  induction l with
  | nil => intro s g; simp [set_true]
  | cons a t ih =>
    intro s g
    show set_true (Function.update s a true) t g = _
    rw [ih]
    by_cases hg : g = a
    · subst hg
      simp [Function.update_same]
    · simp [Function.update_noteq hg, hg]

theorem set_false_eval (l : List ℕ) :
    ∀ (s : ℕ → Bool) (g : ℕ), set_false s l g = (if g ∈ l then false else s g) := by
  induction l with
  | nil => intro s g; simp [set_false]
  | cons a t ih =>
    intro s g
    show set_false (Function.update s a false) t g = _
    rw [ih]
    by_cases hg : g = a
    · subst hg
      simp [Function.update_same]
    · simp [Function.update_noteq hg, hg]

/-- The lazy per-row cleanup restores the all-clear marker state. -/
theorem clean_after_row (l : List ℕ) :
    set_false (set_true (fun _ => false) l) l = (fun _ => false) := by
  funext g
  rw [set_false_eval, set_true_eval]
  by_cases h : g ∈ l <;> simp [h]

/-- The deduplicated, first-occurrence-ordered list of block ids of row
`i`'s nonzero columns — the reference value of one `_support_matrix`
row. -/
def sm_row_blocks (A_indices A_indptr g_blocks : List ℕ) (i : ℕ) : List ℕ :=
  first_dedup ((sm_cols A_indices A_indptr i).map (fun c => g_blocks.getD c 0))

/-- The row-pointer value of row `i`: total number of block ids emitted
for rows `< i`. -/
def sm_ptr (A_indices A_indptr g_blocks : List ℕ) (i : ℕ) : ℕ :=
  (((List.range i).map (sm_row_blocks A_indices A_indptr g_blocks)).flatten).length

theorem getD_map_range {α : Type} (d : α) (f : ℕ → α) (n i : ℕ) (h : i < n) :
    ((List.range n).map f).getD i d = f i := by
  rw [List.getD_eq_getElem?_getD, List.getElem?_map, List.getElem?_range h]
  rfl

theorem sm_fold_spec (A_indices A_indptr g_blocks : List ℕ) (k : ℕ) :
    (List.range k).foldl (sm_body A_indices A_indptr g_blocks)
      ((fun _ => false), [], [0])
      = ((fun _ => false),
         ((List.range k).map
           (sm_row_blocks A_indices A_indptr g_blocks)).flatten,
         (List.range (k + 1)).map (sm_ptr A_indices A_indptr g_blocks)) := by
  induction k with
  | zero => rfl
  | succ k ih =>
    conv_lhs => rw [List.range_succ]
    rw [List.foldl_append, List.foldl_cons, List.foldl_nil, ih]
    have hNB : new_blocks g_blocks (fun _ => false)
          (sm_cols A_indices A_indptr k)
        = sm_row_blocks A_indices A_indptr g_blocks k :=
      new_blocks_false g_blocks (sm_cols A_indices A_indptr k)
    have hjoin : (((List.range (k + 1)).map
          (sm_row_blocks A_indices A_indptr g_blocks)).flatten)
        = (((List.range k).map
            (sm_row_blocks A_indices A_indptr g_blocks)).flatten)
          ++ sm_row_blocks A_indices A_indptr g_blocks k := by
      rw [List.range_succ, List.map_append, List.flatten_append]
      simp
    have hptr : (List.range (k + 1 + 1)).map
          (sm_ptr A_indices A_indptr g_blocks)
        = ((List.range (k + 1)).map (sm_ptr A_indices A_indptr g_blocks))
          ++ [sm_ptr A_indices A_indptr g_blocks (k + 1)] := by
      rw [List.range_succ, List.map_append]
      rfl
    have hlen : sm_ptr A_indices A_indptr g_blocks (k + 1)
        = ((((List.range k).map
              (sm_row_blocks A_indices A_indptr g_blocks)).flatten)
            ++ sm_row_blocks A_indices A_indptr g_blocks k).length := by
      rw [sm_ptr, hjoin]
    have hclean : List.foldl (fun sb g => Function.update sb g false)
        (set_true (fun _ => false) (sm_row_blocks A_indices A_indptr g_blocks k))
        (sm_row_blocks A_indices A_indptr g_blocks k) = (fun _ => false) :=
      clean_after_row _
    simp only [sm_body]
    rw [sm_inner_spec]
    dsimp only
    rw [List.drop_left, hNB, hclean, hjoin, hptr, hlen]

theorem join_slice (L : List (List ℕ)) :
    ∀ i, i < L.length →
      ((L.flatten).drop ((L.take i).flatten).length).take (L.getD i []).length
        = L.getD i [] := by
  induction L with
  | nil => intro i h; exact absurd h (by simp)
  | cons A T ih =>
    intro i h
    match i with
    | 0 =>
      simp only [List.take_zero, List.flatten_nil, List.length_nil,
        List.drop_zero, List.flatten_cons, List.getD_cons_zero]
      exact List.take_left A T.flatten
    | i' + 1 =>
      have hlt : i' < T.length := by simpa using Nat.lt_of_succ_lt_succ h
      rw [List.take_succ_cons, List.flatten_cons, List.flatten_cons,
        List.length_append, List.drop_append, List.getD_cons_succ]
      exact ih i' hlt

/-- C9 (amended): for every sparse structure and block assignment,
`_support_matrix` stores, for each row `i` (read back through the
compressed row-pointer + flat-id layout), exactly the block ids of that
row's nonzero columns, deduplicated — each block id at most once — in
order of first occurrence within the row (not necessarily sorted). -/
theorem C9_support_matrix (A_indices A_indptr g_blocks : List ℕ)
    (n_blocks : ℕ) (i : ℕ) (h : i < A_indptr.length - 1) :
    bs_row (_support_matrix A_indices A_indptr g_blocks n_blocks).2.1
        (_support_matrix A_indices A_indptr g_blocks n_blocks).2.2 i
      = sm_row_blocks A_indices A_indptr g_blocks i
    ∧ (sm_row_blocks A_indices A_indptr g_blocks i).Nodup
    ∧ (∀ g, g ∈ sm_row_blocks A_indices A_indptr g_blocks i
        ↔ g ∈ (sm_cols A_indices A_indptr i).map (fun c => g_blocks.getD c 0)) := by
  refine ⟨?_, ?_, ?_⟩
  · have hres := sm_fold_spec A_indices A_indptr g_blocks
      (A_indptr.length - 1)
    have h1 : (_support_matrix A_indices A_indptr g_blocks n_blocks).2.1
        = ((List.range (A_indptr.length - 1)).map
            (sm_row_blocks A_indices A_indptr g_blocks)).flatten := by
      simp only [_support_matrix]
      rw [hres]
    have h2 : (_support_matrix A_indices A_indptr g_blocks n_blocks).2.2
        = (List.range (A_indptr.length - 1 + 1)).map
            (sm_ptr A_indices A_indptr g_blocks) := by
      simp only [_support_matrix]
      rw [hres]
    rw [bs_row, h1, h2,
      getD_map_range 0 (sm_ptr A_indices A_indptr g_blocks) _ i (by omega),
      getD_map_range 0 (sm_ptr A_indices A_indptr g_blocks) _ (i + 1)
        (by omega)]
    have hL : i < ((List.range (A_indptr.length - 1)).map
        (sm_row_blocks A_indices A_indptr g_blocks)).length := by
      simpa using h
    have hti : ((List.range (A_indptr.length - 1)).map
          (sm_row_blocks A_indices A_indptr g_blocks)).take i
        = (List.range i).map (sm_row_blocks A_indices A_indptr g_blocks) := by
      rw [← List.map_take, List.take_range, min_eq_left (le_of_lt h)]
    have hgd : ((List.range (A_indptr.length - 1)).map
          (sm_row_blocks A_indices A_indptr g_blocks)).getD i []
        = sm_row_blocks A_indices A_indptr g_blocks i :=
      getD_map_range [] (sm_row_blocks A_indices A_indptr g_blocks) _ i h
    have hsucc : sm_ptr A_indices A_indptr g_blocks (i + 1)
        = sm_ptr A_indices A_indptr g_blocks i
          + (sm_row_blocks A_indices A_indptr g_blocks i).length := by
      rw [sm_ptr, sm_ptr, List.range_succ, List.map_append,
        List.flatten_append, List.length_append]
      simp
    have hdiff : sm_ptr A_indices A_indptr g_blocks (i + 1)
          - sm_ptr A_indices A_indptr g_blocks i
        = (sm_row_blocks A_indices A_indptr g_blocks i).length := by
      omega
    have hptri : sm_ptr A_indices A_indptr g_blocks i
        = ((((List.range (A_indptr.length - 1)).map
            (sm_row_blocks A_indices A_indptr g_blocks)).take i).flatten).length := by
      rw [hti, sm_ptr]
    have := join_slice ((List.range (A_indptr.length - 1)).map
      (sm_row_blocks A_indices A_indptr g_blocks)) i hL
    rw [hgd] at this
    rw [hdiff, hptri]
    exact this
  · exact (first_dedup_aux_spec
      ((sm_cols A_indices A_indptr i).map (fun c => g_blocks.getD c 0)) []).1
  · intro g
    exact ((first_dedup_aux_spec
      ((sm_cols A_indices A_indptr i).map (fun c => g_blocks.getD c 0)) []).2
        g).trans (by simp)

/-- C9 counterexample: a row whose columns `[0, 1]` carry blocks `[1, 0]`
yields the flat id list `[1, 0]` — first-occurrence order, not sorted
increasing. -/
theorem C9_counterexample :
    (_support_matrix [0, 1] [0, 2] [1, 0] 2).2.1 = [1, 0]
    ∧ ¬ List.Sorted (· < ·) (_support_matrix [0, 1] [0, 2] [1, 0] 2).2.1 := by
  constructor
  · rfl
  · intro hs
    have := List.rel_of_sorted_cons (by exact hs) 0 (by decide)
    omega

theorem C9_witness :
    (1 : ℕ) < [0, 1, 3].length - 1
    ∧ bs_row (_support_matrix [0, 0, 1] [0, 1, 3] [0, 1] 2).2.1
        (_support_matrix [0, 0, 1] [0, 1, 3] [0, 1] 2).2.2 1
      = sm_row_blocks [0, 0, 1] [0, 1, 3] [0, 1] 1 :=
  ⟨by decide, (C9_support_matrix [0, 0, 1] [0, 1, 3] [0, 1] 2 1 (by decide)).1⟩

/-- C10: the SAGA warm-up leaves the coefficient vector unchanged (the
kernel runs on a copy of `x`), while applying to the shared memory terms
exactly the one sample-0 update: the memory table changes only at index 0,
where it takes the derivative at the prediction computed from the current
`x`, and the gradient average gains the corresponding increment on row 0's
nonzero columns; no other solver state is touched. -/
theorem C10_warmup_frame (M : CSR) (f_prime : ℚ → ℚ → ℚ) (b : List ℚ)
    (g_prox : ProxFn) (alpha beta step_size : ℚ) (st : SagaState) :
    (saga_warmup M f_prime b g_prox alpha beta step_size st).x = st.x
    ∧ (saga_warmup M f_prime b g_prox alpha beta step_size st).mem
      = Function.update st.mem 0
          (f_prime (((M.row 0).map (fun e => st.x e.1 * e.2)).sum)
            (b.getD 0 0))
    ∧ ∀ j, (saga_warmup M f_prime b g_prox alpha beta step_size st).ga j
        = st.ga j
          + (f_prime (((M.row 0).map (fun e => st.x e.1 * e.2)).sum)
              (b.getD 0 0) - st.mem 0) * M.Aent 0 j / M.n_samples := by
  refine ⟨rfl, ?_, ?_⟩
  · simp only [saga_warmup, epoch_iteration_template, List.foldl_cons,
      List.foldl_nil, saga_sample]
    rw [show st.mem 0
        + (f_prime (((M.row 0).map (fun e => st.x e.1 * e.2)).sum)
            (b.getD 0 0) - st.mem 0)
      = f_prime (((M.row 0).map (fun e => st.x e.1 * e.2)).sum) (b.getD 0 0)
      from by ring]
  · intro j
    simp only [saga_warmup, epoch_iteration_template, List.foldl_cons,
      List.foldl_nil, saga_sample]
    rw [foldl_add_update]
    rfl
